import Mathlib

/-!
Shallow embedding of the rendering, layout and animation engine of
`custom_components/unexpected_matrix_pixels/light.py` (class `UmpDisplayEntity`),
together with proofs of the spec's testable properties.

Python strings are modelled as `List Char`, Python ints as `ℤ`/`ℕ`, and
wall-clock times and float arithmetic as exact rationals `ℚ`.  The one place
where IEEE-754 double rounding is observable at the integer output
(`_apply_brightness_to_color`) is modelled with an exact round-to-nearest
53-bit-significand function `rdDouble`.
-/

namespace Ump

/-- The space character, written via its code point. -/
def SP : Char := Char.ofNat 32

/-- Python `int(...)` applied to a nonnegative-or-negative rational:
truncation toward zero. -/
def pytrunc (q : ℚ) : ℤ := if 0 ≤ q then ⌊q⌋ else ⌈q⌉

/-- Python `%` on (positive-divisor) numbers: `a - b * ⌊a / b⌋`. -/
def qmod (a b : ℚ) : ℚ := a - b * ⌊a / b⌋

theorem qmod_nonneg (a : ℚ) {b : ℚ} (hb : 0 < b) : 0 ≤ qmod a b := by
  have h := Int.floor_le (a / b)
  have : (⌊a / b⌋ : ℚ) * b ≤ a / b * b := by
    exact mul_le_mul_of_nonneg_right h (le_of_lt hb)
  rw [div_mul_cancel₀ a (ne_of_gt hb)] at this
  unfold qmod
  nlinarith

theorem qmod_lt (a : ℚ) {b : ℚ} (hb : 0 < b) : qmod a b < b := by
  have h := Int.lt_floor_add_one (a / b)
  have : a / b * b < ((⌊a / b⌋ : ℚ) + 1) * b := by
    exact mul_lt_mul_of_pos_right h hb
  rw [div_mul_cancel₀ a (ne_of_gt hb)] at this
  unfold qmod
  nlinarith

theorem qmod_add_right (a : ℚ) {b : ℚ} (hb : b ≠ 0) : qmod (a + b) b = qmod a b := by
  unfold qmod
  have : (a + b) / b = a / b + 1 := by
    field_simp
  rw [this, Int.floor_add_one]
  push_cast
  ring

/-- Round-to-nearest IEEE-754 double for a nonnegative rational: 53 significant
bits.  (For the inputs arising below no rounding ties occur, so the
tie-breaking direction of `round` is irrelevant.) -/
def rdDouble (q : ℚ) : ℚ :=
  if q ≤ 0 then 0
  else (round (q * (2 : ℚ) ^ (52 - Int.log 2 q)) : ℚ) * (2 : ℚ) ^ (Int.log 2 q - 52)

theorem int_log_eq_of {q : ℚ} {e : ℤ} (h1 : (2 : ℚ) ^ e ≤ q) (h2 : q < (2 : ℚ) ^ (e + 1)) :
    Int.log 2 q = e := by
  have hq : 0 < q := lt_of_lt_of_le (zpow_pos (by norm_num) e) h1
  have hle : e ≤ Int.log 2 q := by
    rw [← Int.zpow_le_iff_le_log one_lt_two hq]
    exact_mod_cast h1
  have hlt : Int.log 2 q < e + 1 := by
    rw [← Int.lt_zpow_iff_log_lt one_lt_two hq]
    exact_mod_cast h2
  omega

theorem rdDouble_eq_of {q : ℚ} {e : ℤ} (h1 : (2 : ℚ) ^ e ≤ q) (h2 : q < (2 : ℚ) ^ (e + 1)) :
    rdDouble q = (round (q * (2 : ℚ) ^ (52 - e)) : ℚ) * (2 : ℚ) ^ (e - 52) := by
  have hq : 0 < q := lt_of_lt_of_le (zpow_pos (by norm_num) e) h1
  rw [rdDouble, if_neg (not_le.mpr hq), int_log_eq_of h1 h2]

/-- Evaluate `rdDouble` at a concrete dyadic answer. -/
theorem rdDouble_eval {q : ℚ} {e n : ℤ}
    (h1 : (2 : ℚ) ^ e ≤ q) (h2 : q < (2 : ℚ) ^ (e + 1))
    (h3 : (n : ℚ) ≤ q * (2 : ℚ) ^ (52 - e) + 1 / 2)
    (h4 : q * (2 : ℚ) ^ (52 - e) + 1 / 2 < n + 1) :
    rdDouble q = (n : ℚ) * (2 : ℚ) ^ (e - 52) := by
  rw [rdDouble_eq_of h1 h2, round_eq, Int.floor_eq_iff.mpr ⟨h3, h4⟩]

theorem round_mono_rat {x y : ℚ} (h : x ≤ y) : round x ≤ round y := by
  rw [round_eq, round_eq]
  exact Int.floor_le_floor (by linarith)

/-- Relative error of one double rounding: at most one part in `2 ^ 53`. -/
theorem rdDouble_bounds {q : ℚ} (hq : 0 < q) :
    q - q / 9007199254740992 ≤ rdDouble q ∧ rdDouble q ≤ q + q / 9007199254740992 := by
  have h1 : (2 : ℚ) ^ Int.log 2 q ≤ q := by
    exact_mod_cast Int.zpow_log_le_self one_lt_two hq
  set e := Int.log 2 q with he
  have ha : (0 : ℚ) < (2 : ℚ) ^ e := zpow_pos (by norm_num) _
  have hp : ((2 : ℚ) ^ ((52 : ℤ) - e)) = 4503599627370496 / (2 : ℚ) ^ e := by
    rw [zpow_sub₀ (by norm_num : (2 : ℚ) ≠ 0)]
    norm_num
  have hp2 : ((2 : ℚ) ^ (e - (52 : ℤ))) = (2 : ℚ) ^ e / 4503599627370496 := by
    rw [zpow_sub₀ (by norm_num : (2 : ℚ) ≠ 0)]
    norm_num
  rw [rdDouble, if_neg (not_le.mpr hq), hp, hp2]
  obtain ⟨hx1, hx2⟩ := abs_sub_le_iff.mp (abs_sub_round (q * (4503599627370496 / (2 : ℚ) ^ e)))
  set r : ℚ := (round (q * (4503599627370496 / (2 : ℚ) ^ e)) : ℚ) with hr
  have hxe : q * (4503599627370496 / (2 : ℚ) ^ e) * (2 : ℚ) ^ e = q * 4503599627370496 := by
    field_simp
  have hlow : q * 4503599627370496 - r * (2 : ℚ) ^ e ≤ (2 : ℚ) ^ e / 2 := by
    have h := mul_le_mul_of_nonneg_right hx1 ha.le
    calc q * 4503599627370496 - r * (2 : ℚ) ^ e
        = (q * (4503599627370496 / (2 : ℚ) ^ e) - r) * (2 : ℚ) ^ e := by
          rw [sub_mul, hxe]
      _ ≤ 1 / 2 * (2 : ℚ) ^ e := h
      _ = (2 : ℚ) ^ e / 2 := by ring
  have hhigh : r * (2 : ℚ) ^ e - q * 4503599627370496 ≤ (2 : ℚ) ^ e / 2 := by
    have h := mul_le_mul_of_nonneg_right hx2 ha.le
    calc r * (2 : ℚ) ^ e - q * 4503599627370496
        = (r - q * (4503599627370496 / (2 : ℚ) ^ e)) * (2 : ℚ) ^ e := by
          rw [sub_mul, hxe]
      _ ≤ 1 / 2 * (2 : ℚ) ^ e := h
      _ = (2 : ℚ) ^ e / 2 := by ring
  constructor
  · rw [← mul_div_assoc, le_div_iff₀ (by norm_num : (0 : ℚ) < 4503599627370496)]
    linarith
  · rw [← mul_div_assoc, div_le_iff₀ (by norm_num : (0 : ℚ) < 4503599627370496)]
    linarith

theorem rdDouble_nonneg (q : ℚ) : 0 ≤ rdDouble q := by
  by_cases h : q ≤ 0
  · rw [rdDouble, if_pos h]
  · have hq : 0 < q := lt_of_not_le h
    have hb := (rdDouble_bounds hq).1
    nlinarith

theorem rdDouble_le_zpow_succ {q : ℚ} (hq : 0 < q) :
    rdDouble q ≤ (2 : ℚ) ^ (Int.log 2 q + 1) := by
  have h2 : q < (2 : ℚ) ^ (Int.log 2 q + 1) := by
    exact_mod_cast Int.lt_zpow_succ_log_self one_lt_two q
  set e := Int.log 2 q with he
  rw [rdDouble, if_neg (not_le.mpr hq)]
  have ha : (0 : ℚ) < (2 : ℚ) ^ ((52 : ℤ) - e) := zpow_pos (by norm_num) _
  have hx : q * (2 : ℚ) ^ ((52 : ℤ) - e) < 9007199254740992 := by
    calc q * (2 : ℚ) ^ ((52 : ℤ) - e) < (2 : ℚ) ^ (e + 1) * (2 : ℚ) ^ ((52 : ℤ) - e) :=
          mul_lt_mul_of_pos_right h2 ha
      _ = 9007199254740992 := by
          rw [← zpow_add₀ (by norm_num : (2 : ℚ) ≠ 0),
            show e + 1 + ((52 : ℤ) - e) = (53 : ℤ) from by ring]
          norm_num
  have hround : round (q * (2 : ℚ) ^ ((52 : ℤ) - e)) ≤ 9007199254740992 := by
    have hlt : ⌊q * (2 : ℚ) ^ ((52 : ℤ) - e) + 1 / 2⌋ < (9007199254740993 : ℤ) := by
      apply Int.floor_lt.mpr
      push_cast
      linarith
    rw [round_eq]
    omega
  have hb : (0 : ℚ) < (2 : ℚ) ^ (e - (52 : ℤ)) := zpow_pos (by norm_num) _
  calc (round (q * (2 : ℚ) ^ ((52 : ℤ) - e)) : ℚ) * (2 : ℚ) ^ (e - (52 : ℤ))
      ≤ (9007199254740992 : ℚ) * (2 : ℚ) ^ (e - (52 : ℤ)) :=
        mul_le_mul_of_nonneg_right (by exact_mod_cast hround) hb.le
    _ = (2 : ℚ) ^ (e + 1) := by
        rw [show (9007199254740992 : ℚ) = (2 : ℚ) ^ ((53 : ℤ)) from by norm_num,
          ← zpow_add₀ (by norm_num : (2 : ℚ) ≠ 0),
          show (53 : ℤ) + (e - 52) = e + 1 from by ring]

theorem zpow_le_rdDouble {q : ℚ} (hq : 0 < q) :
    (2 : ℚ) ^ (Int.log 2 q) ≤ rdDouble q := by
  have h1 : (2 : ℚ) ^ Int.log 2 q ≤ q := by
    exact_mod_cast Int.zpow_log_le_self one_lt_two hq
  set e := Int.log 2 q with he
  rw [rdDouble, if_neg (not_le.mpr hq)]
  have ha : (0 : ℚ) < (2 : ℚ) ^ ((52 : ℤ) - e) := zpow_pos (by norm_num) _
  have hx : (4503599627370496 : ℚ) ≤ q * (2 : ℚ) ^ ((52 : ℤ) - e) := by
    calc (4503599627370496 : ℚ) = (2 : ℚ) ^ e * (2 : ℚ) ^ ((52 : ℤ) - e) := by
          rw [← zpow_add₀ (by norm_num : (2 : ℚ) ≠ 0),
            show e + ((52 : ℤ) - e) = (52 : ℤ) from by ring]
          norm_num
      _ ≤ q * (2 : ℚ) ^ ((52 : ℤ) - e) := mul_le_mul_of_nonneg_right h1 ha.le
  have hround : (4503599627370496 : ℤ) ≤ round (q * (2 : ℚ) ^ ((52 : ℤ) - e)) := by
    rw [round_eq]
    apply Int.le_floor.mpr
    push_cast
    linarith
  have hb : (0 : ℚ) < (2 : ℚ) ^ (e - (52 : ℤ)) := zpow_pos (by norm_num) _
  calc (2 : ℚ) ^ e = (4503599627370496 : ℚ) * (2 : ℚ) ^ (e - (52 : ℤ)) := by
        rw [show (4503599627370496 : ℚ) = (2 : ℚ) ^ ((52 : ℤ)) from by norm_num,
          ← zpow_add₀ (by norm_num : (2 : ℚ) ≠ 0),
          show (52 : ℤ) + (e - 52) = e from by ring]
    _ ≤ (round (q * (2 : ℚ) ^ ((52 : ℤ) - e)) : ℚ) * (2 : ℚ) ^ (e - (52 : ℤ)) :=
        mul_le_mul_of_nonneg_right (by exact_mod_cast hround) hb.le

theorem rdDouble_mono {p q : ℚ} (h0 : 0 ≤ p) (h : p ≤ q) : rdDouble p ≤ rdDouble q := by
  rcases eq_or_lt_of_le h0 with hp0 | hp
  · rw [rdDouble, if_pos (le_of_eq hp0.symm)]
    exact rdDouble_nonneg q
  · have hq : 0 < q := lt_of_lt_of_le hp h
    have hlog := Int.log_mono_right (b := 2) hp h
    rcases eq_or_lt_of_le hlog with heq | hlt
    · rw [rdDouble, if_neg (not_le.mpr hp), rdDouble, if_neg (not_le.mpr hq), ← heq]
      have ha : (0 : ℚ) < (2 : ℚ) ^ ((52 : ℤ) - Int.log 2 p) := zpow_pos (by norm_num) _
      have hb : (0 : ℚ) < (2 : ℚ) ^ (Int.log 2 p - (52 : ℤ)) := zpow_pos (by norm_num) _
      refine mul_le_mul_of_nonneg_right ?_ hb.le
      exact_mod_cast round_mono_rat (mul_le_mul_of_nonneg_right h ha.le)
    · calc rdDouble p ≤ (2 : ℚ) ^ (Int.log 2 p + 1) := rdDouble_le_zpow_succ hp
        _ ≤ (2 : ℚ) ^ (Int.log 2 q) := by
            apply zpow_le_zpow_right₀ (by norm_num : (1 : ℚ) ≤ 2)
            omega
        _ ≤ rdDouble q := zpow_le_rdDouble hq

/-- `_apply_brightness_to_color`, per channel: Python `int(c * scale)` where
`scale = self._brightness / 255.0` — both the division and the product are
IEEE-754 double operations, and `int` truncates. -/
def scaleChannel (brightness c : ℕ) : ℤ :=
  ⌊rdDouble ((c : ℚ) * rdDouble ((brightness : ℚ) / 255))⌋

/-- `_apply_brightness_to_color`: at brightness 255 the colour is returned
unchanged; otherwise the first three channels are scaled and any remaining
channels (alpha) are passed through. -/
def applyBrightnessToColor (brightness : ℕ) (color : List ℕ) : List ℤ :=
  if brightness = 255 then color.map Int.ofNat
  else (color.take 3).map (scaleChannel brightness) ++ (color.drop 3).map Int.ofNat

theorem rdDouble_of_nonpos {q : ℚ} (h : q ≤ 0) : rdDouble q = 0 := by
  rw [rdDouble, if_pos h]

theorem scaleChannel_zero_left (c : ℕ) : scaleChannel 0 c = 0 := by
  rw [scaleChannel]
  norm_num [rdDouble_of_nonpos]

/-- The double computed for brightness scaling stays within one part in `2 ^ 51`
of the exact value `c * b / 255`. -/
theorem scaleChannel_near {b c : ℕ} (hb0 : 0 < b) (hc0 : 0 < c) :
    (c : ℚ) * b / 255 - ((c : ℚ) * b / 255) * 3 / 9007199254740992 ≤
      rdDouble ((c : ℚ) * rdDouble ((b : ℚ) / 255)) ∧
    rdDouble ((c : ℚ) * rdDouble ((b : ℚ) / 255)) ≤
      (c : ℚ) * b / 255 + ((c : ℚ) * b / 255) * 3 / 9007199254740992 := by
  have hbq : (0 : ℚ) < (b : ℚ) / 255 := by positivity
  have hcq : (0 : ℚ) < (c : ℚ) := by exact_mod_cast hc0
  obtain ⟨hs1, hs2⟩ := rdDouble_bounds hbq
  have hspos : 0 < rdDouble ((b : ℚ) / 255) := by nlinarith
  have hq2 : (0 : ℚ) < (c : ℚ) * rdDouble ((b : ℚ) / 255) := by positivity
  obtain ⟨ht1, ht2⟩ := rdDouble_bounds hq2
  constructor
  · nlinarith
  · nlinarith

theorem scaleChannel_bounds {b c : ℕ} (hb : b ≤ 255) (hc : c ≤ 255) :
    ⌊(c : ℚ) * b / 255⌋ - 1 ≤ scaleChannel b c ∧ scaleChannel b c ≤ ⌊(c : ℚ) * b / 255⌋ := by
  rcases Nat.eq_zero_or_pos b with hb0 | hb0
  · subst hb0
    rw [scaleChannel_zero_left]
    norm_num
  rcases Nat.eq_zero_or_pos c with hc0 | hc0
  · subst hc0
    rw [scaleChannel]
    norm_num [rdDouble_of_nonpos]
  set X : ℚ := (c : ℚ) * b / 255 with hX
  obtain ⟨hn1, hn2⟩ := scaleChannel_near hb0 hc0
  have hX255 : X ≤ 255 := by
    rw [hX]
    rw [div_le_iff₀ (by norm_num : (0 : ℚ) < 255)]
    have hbq : (b : ℚ) ≤ 255 := by exact_mod_cast hb
    have hcq : (c : ℚ) ≤ 255 := by exact_mod_cast hc
    nlinarith
  have hXpos : 0 < X := by
    rw [hX]
    have hbq : (0 : ℚ) < (b : ℚ) := by exact_mod_cast hb0
    have hcq : (0 : ℚ) < (c : ℚ) := by exact_mod_cast hc0
    positivity
  -- the fractional part of X is at most 254/255 because 255 * X is an integer
  have hfract : X - ⌊X⌋ ≤ 254 / 255 := by
    have hint : ((c * b : ℕ) : ℚ) = 255 * X := by
      push_cast
      rw [hX]
      ring
    have hk : ((c * b : ℕ) : ℤ) - 255 * ⌊X⌋ < 255 := by
      have : (((c * b : ℕ) : ℤ) : ℚ) - 255 * (⌊X⌋ : ℚ) < 255 := by
        push_cast
        have := Int.lt_floor_add_one X
        nlinarith [hint]
      exact_mod_cast this
    have hk2 : ((c * b : ℕ) : ℤ) - 255 * ⌊X⌋ ≤ 254 := by omega
    have : (((c * b : ℕ) : ℤ) : ℚ) - 255 * (⌊X⌋ : ℚ) ≤ 254 := by exact_mod_cast hk2
    push_cast at this
    nlinarith [hint]
  have hfl := Int.floor_le X
  constructor
  · rw [scaleChannel]
    have hge : ((⌊X⌋ - 1 : ℤ) : ℚ) ≤ rdDouble ((c : ℚ) * rdDouble ((b : ℚ) / 255)) := by
      push_cast
      nlinarith
    have := Int.le_floor.mpr hge
    omega
  · rw [scaleChannel]
    have hlt : rdDouble ((c : ℚ) * rdDouble ((b : ℚ) / 255)) < (⌊X⌋ : ℚ) + 1 := by
      nlinarith
    have := Int.floor_lt.mpr (by push_cast; linarith [hlt] : rdDouble ((c : ℚ) * rdDouble ((b : ℚ) / 255)) < ((⌊X⌋ + 1 : ℤ) : ℚ))
    omega

theorem scaleChannel_mono {b1 b2 : ℕ} (c : ℕ) (h : b1 ≤ b2) :
    scaleChannel b1 c ≤ scaleChannel b2 c := by
  rw [scaleChannel, scaleChannel]
  apply Int.floor_le_floor
  apply rdDouble_mono (mul_nonneg (by positivity) (rdDouble_nonneg _))
  refine mul_le_mul_of_nonneg_left ?_ (by positivity)
  apply rdDouble_mono (by positivity)
  have hb : (b1 : ℚ) ≤ (b2 : ℚ) := by exact_mod_cast h
  linarith

theorem scaleChannel_le_self {b c : ℕ} (hb : b ≤ 255) (hc : c ≤ 255) :
    scaleChannel b c ≤ (c : ℤ) := by
  have h := (scaleChannel_bounds hb hc).2
  have hX : (c : ℚ) * b / 255 ≤ (c : ℚ) := by
    rw [div_le_iff₀ (by norm_num : (0 : ℚ) < 255)]
    have hbq : (b : ℚ) ≤ 255 := by exact_mod_cast hb
    have hcq : (0 : ℚ) ≤ (c : ℚ) := by positivity
    nlinarith
  calc scaleChannel b c ≤ ⌊(c : ℚ) * b / 255⌋ := h
    _ ≤ ⌊(c : ℚ)⌋ := Int.floor_le_floor hX
    _ = (c : ℤ) := Int.floor_natCast c

theorem rd_s147 : rdDouble (147 / 255) = (5192385452733042 : ℚ) * (2 : ℚ) ^ ((-53 : ℤ)) := by
  rw [rdDouble_eval (e := -1) (n := 5192385452733042) (by norm_num) (by norm_num) (by norm_num)
    (by norm_num)]
  norm_num

theorem rd_c85 : rdDouble (85 * ((5192385452733042 : ℚ) * (2 : ℚ) ^ ((-53 : ℤ)))) =
    (6896136929411071 : ℚ) * (2 : ℚ) ^ ((-47 : ℤ)) := by
  rw [rdDouble_eval (e := 5) (n := 6896136929411071) (by norm_num) (by norm_num) (by norm_num)
    (by norm_num)]
  norm_num

/-- Brightness 147 applied to channel 85 yields 48 in the code, although
`85 * 147 = 49 * 255` exactly, so the spec's floor formula gives 49. -/
theorem scaleChannel_147_85 : scaleChannel 147 85 = 48 := by
  rw [scaleChannel]
  simp only [Nat.cast_ofNat]
  rw [rd_s147, rd_c85]
  rw [Int.floor_eq_iff]
  norm_num

/-- C2, counterexample: the claim `scale(c) = floor(c * brightness / 255)` fails
on the code at channel 85, brightness 147.  `85 * 147 = 12495 = 49 * 255`, so
the floor formula gives 49, but the double-precision computation
`int(85 * (147 / 255.0))` performed by `_apply_brightness_to_color` yields 48. -/
theorem c2_counterexample :
    applyBrightnessToColor 147 [85, 85, 85] = [48, 48, 48] ∧
    ⌊(85 : ℚ) * 147 / 255⌋ = 49 := by
  constructor
  · rw [applyBrightnessToColor, if_neg (by norm_num)]
    simp [scaleChannel_147_85]
  · rw [show (85 : ℚ) * 147 / 255 = 49 from by norm_num]
    exact Int.floor_intCast 49

/-- C2 (amended): at brightness 255 the function short-circuits and returns the
colour unchanged; at brightness 0 every scaled channel is 0; the scaled value
is the double-precision truncation `int(c * (brightness / 255.0))`, which lies
within 1 below `floor(c * brightness / 255)` (and can fall short of it by
exactly 1 when `255` divides `c * brightness`); for fixed `c` the result is
monotonically non-decreasing in brightness; a fourth (alpha) channel is passed
through unscaled. -/
theorem c2_brightness_scaling_amended :
    (∀ color : List ℕ, applyBrightnessToColor 255 color = color.map Int.ofNat) ∧
    (∀ c : ℕ, scaleChannel 0 c = 0) ∧
    (∀ b c : ℕ, b ≤ 255 → c ≤ 255 →
      ⌊(c : ℚ) * b / 255⌋ - 1 ≤ scaleChannel b c ∧ scaleChannel b c ≤ ⌊(c : ℚ) * b / 255⌋) ∧
    (∀ b1 b2 c : ℕ, b1 ≤ b2 → b2 ≤ 255 → c ≤ 255 →
      (applyBrightnessToColor b1 [c]).headD 0 ≤ (applyBrightnessToColor b2 [c]).headD 0) ∧
    (∀ b r g bl a : ℕ, (applyBrightnessToColor b [r, g, bl, a]).getD 3 0 = (a : ℤ)) := by
  refine ⟨?_, scaleChannel_zero_left, fun b c hb hc => scaleChannel_bounds hb hc, ?_, ?_⟩
  · intro color
    rw [applyBrightnessToColor, if_pos rfl]
  · intro b1 b2 c h12 h2 hc
    by_cases hb1 : b1 = 255
    · have hb2 : b2 = 255 := by omega
      subst hb1; subst hb2
      exact le_refl _
    by_cases hb2 : b2 = 255
    · subst hb2
      rw [applyBrightnessToColor, if_neg hb1, applyBrightnessToColor, if_pos rfl]
      simpa using scaleChannel_le_self (by omega) hc
    · rw [applyBrightnessToColor, if_neg hb1, applyBrightnessToColor, if_neg hb2]
      simpa using scaleChannel_mono c h12
  · intro b r g bl a
    rw [applyBrightnessToColor]
    by_cases hb : b = 255
    · rw [if_pos hb]
      rfl
    · rw [if_neg hb]
      rfl

/-- Witness for `c2_brightness_scaling_amended` at concrete inputs. -/
theorem c2_brightness_scaling_witness :
    (⌊(85 : ℚ) * 254 / 255⌋ - 1 ≤ scaleChannel 254 85 ∧
      scaleChannel 254 85 ≤ ⌊(85 : ℚ) * 254 / 255⌋) ∧
    (applyBrightnessToColor 100 [85]).headD 0 ≤ (applyBrightnessToColor 200 [85]).headD 0 ∧
    (applyBrightnessToColor 7 [1, 2, 3, 200]).getD 3 0 = (200 : ℤ) :=
  ⟨c2_brightness_scaling_amended.2.2.1 254 85 (by norm_num) (by norm_num),
   c2_brightness_scaling_amended.2.2.2.1 100 200 85 (by norm_num) (by norm_num) (by norm_num),
   c2_brightness_scaling_amended.2.2.2.2 7 1 2 3 200⟩

/-! ## Glyphs, text measurement and word wrap -/

/-- One entry of `AWTRIX_GLYPHS`: bitmap offset, width, height, advance,
x-offset, y-offset.  The table itself lives in `fonts.py`, which is not part
of the sources here, so all statements are parametric in it. -/
structure AwGlyph where
  bo : ℕ
  w : ℕ
  h : ℕ
  adv : ℕ
  xo : ℤ
  yo : ℤ
deriving DecidableEq, Repr

/-- The advance computed by `_get_char_mask` (and hence
`_measure_char_width`).  For the fixed-width fonts the advance is the cell
width (3 for `3x5`, 5 otherwise) whether or not the character is present in
the table; for `awtrix` it is the glyph's advance when a mask is built
(printable ASCII, in table, positive area), else the fallback 4. -/
def measureCharWidth (glyphs : List AwGlyph) (font : String) (c : Char) : ℕ :=
  if font = "awtrix" then
    if 32 ≤ c.toNat ∧ c.toNat ≤ 126 then
      match glyphs[c.toNat - 32]? with
      | some g => if 0 < g.w ∧ 0 < g.h then g.adv else 4
      | none => 4
    else 4
  else if font = "3x5" then 3
  else 5

/-- `extra_space` as computed in `_measure_text_width`, `_get_text_lines` and
`_draw_char_loop`: `spacing - 1` for the `awtrix` font, else `spacing`. -/
def spacingAdjust (font : String) (spacing : ℤ) : ℤ :=
  if font = "awtrix" then spacing - 1 else spacing

/-- `_measure_text_width`: each character's advance, plus `extra_space` after
every character except the last; 0 for empty text. -/
def measureTextWidth (glyphs : List AwGlyph) (text : List Char) (font : String)
    (spacing : ℤ) : ℤ :=
  match text with
  | [] => 0
  | [c] => measureCharWidth glyphs font c
  | c :: rest =>
    measureCharWidth glyphs font c + spacingAdjust font spacing +
      measureTextWidth glyphs rest font spacing

/-- The spec's wording of `measure`: the sum of the advances plus one
inter-character gap per pair of consecutive characters; zero for empty text. -/
def specMeasure (glyphs : List AwGlyph) (text : List Char) (font : String)
    (spacing : ℤ) : ℤ :=
  if text = [] then 0
  else ((text.map (measureCharWidth glyphs font)).sum : ℤ) +
    spacingAdjust font spacing * ((text.length : ℤ) - 1)

/-- Python `text.split(' ')`: split at every single space, keeping empty
pieces; `[""]` for the empty string. -/
def splitSp : List Char → List (List Char)
  | [] => [[]]
  | c :: rest =>
    if c = SP then [] :: splitSp rest
    else
      match splitSp rest with
      | l :: ls => (c :: l) :: ls
      | [] => [[c]]

/-- Python `" ".join(...)` on a list of strings. -/
def joinSp : List (List Char) → List Char
  | [] => []
  | [w] => w
  | w :: rest => w ++ SP :: joinSp rest

/-- `actual_space_px` in `_get_text_lines`: the advance of the space character
plus the spacing adjustment. -/
def actualSpacePx (glyphs : List AwGlyph) (font : String) (spacing : ℤ) : ℤ :=
  (measureCharWidth glyphs font SP : ℤ) + spacingAdjust font spacing

/-- One iteration of the word loop in `_get_text_lines`, operating on the
state `(lines, current_line, current_line_width)`. -/
def wrapStep (glyphs : List AwGlyph) (font : String) (spacing maxW : ℤ)
    (st : List (List Char) × List (List Char) × ℤ) (word : List Char) :
    List (List Char) × List (List Char) × ℤ :=
  let wordW := measureTextWidth glyphs word font spacing
  if st.2.1 = [] then (st.1, [word], wordW)
  else
    let newW := st.2.2 + actualSpacePx glyphs font spacing + wordW
    if newW ≤ maxW then (st.1, st.2.1 ++ [word], newW)
    else (st.1 ++ [joinSp st.2.1], [word], wordW)

/-- `_get_text_lines`: greedy word wrap of `text` split on single spaces. -/
def getTextLines (glyphs : List AwGlyph) (text : List Char) (font : String)
    (spacing maxW : ℤ) : List (List Char) :=
  let st := (splitSp text).foldl (wrapStep glyphs font spacing maxW) ([], [], 0)
  if st.2.1 = [] then st.1 else st.1 ++ [joinSp st.2.1]

/-- The same loop at the level of groups of words (lines before joining). -/
def wrapStepG (glyphs : List AwGlyph) (font : String) (spacing maxW : ℤ)
    (st : List (List (List Char)) × List (List Char) × ℤ) (word : List Char) :
    List (List (List Char)) × List (List Char) × ℤ :=
  let wordW := measureTextWidth glyphs word font spacing
  if st.2.1 = [] then (st.1, [word], wordW)
  else
    let newW := st.2.2 + actualSpacePx glyphs font spacing + wordW
    if newW ≤ maxW then (st.1, st.2.1 ++ [word], newW)
    else (st.1 ++ [st.2.1], [word], wordW)

/-- The groups of words that `_get_text_lines` joins into lines. -/
def wrapGroups (glyphs : List AwGlyph) (font : String) (spacing maxW : ℤ)
    (words : List (List Char)) : List (List (List Char)) :=
  let st := words.foldl (wrapStepG glyphs font spacing maxW) ([], [], 0)
  if st.2.1 = [] then st.1 else st.1 ++ [st.2.1]

theorem measureTextWidth_nil (glyphs : List AwGlyph) (font : String) (spacing : ℤ) :
    measureTextWidth glyphs [] font spacing = 0 := rfl

theorem measureTextWidth_singleton (glyphs : List AwGlyph) (font : String) (spacing : ℤ)
    (c : Char) : measureTextWidth glyphs [c] font spacing = measureCharWidth glyphs font c := rfl

theorem measureTextWidth_cons_cons (glyphs : List AwGlyph) (font : String) (spacing : ℤ)
    (c d : Char) (rest : List Char) :
    measureTextWidth glyphs (c :: d :: rest) font spacing =
      measureCharWidth glyphs font c + spacingAdjust font spacing +
        measureTextWidth glyphs (d :: rest) font spacing := rfl

theorem measure_eq_spec (glyphs : List AwGlyph) (text : List Char) (font : String)
    (spacing : ℤ) :
    measureTextWidth glyphs text font spacing = specMeasure glyphs text font spacing := by
  induction text with
  | nil => rfl
  | cons c rest ih =>
    cases rest with
    | nil =>
      rw [measureTextWidth_singleton, specMeasure, if_neg (by simp)]
      simp
    | cons d rest2 =>
      rw [measureTextWidth_cons_cons, ih, specMeasure, if_neg (by simp),
        specMeasure, if_neg (by simp)]
      simp only [List.map_cons, List.sum_cons, List.length_cons]
      push_cast
      ring

theorem measure_nonneg (glyphs : List AwGlyph) {font : String} {spacing : ℤ}
    (hadj : 0 ≤ spacingAdjust font spacing) (text : List Char) :
    0 ≤ measureTextWidth glyphs text font spacing := by
  induction text with
  | nil => simp [measureTextWidth_nil]
  | cons c rest ih =>
    cases rest with
    | nil => rw [measureTextWidth_singleton]; positivity
    | cons d rest2 =>
      rw [measureTextWidth_cons_cons]
      have : (0 : ℤ) ≤ measureCharWidth glyphs font c := by positivity
      linarith

theorem spacePx_nonneg (glyphs : List AwGlyph) {font : String} {spacing : ℤ}
    (hadj : 0 ≤ spacingAdjust font spacing) :
    0 ≤ actualSpacePx glyphs font spacing := by
  rw [actualSpacePx]
  have : (0 : ℤ) ≤ measureCharWidth glyphs font SP := by positivity
  linarith

theorem splitSp_nil : splitSp [] = [[]] := rfl

theorem splitSp_cons (c : Char) (rest : List Char) :
    splitSp (c :: rest) =
      if c = SP then [] :: splitSp rest
      else
        match splitSp rest with
        | l :: ls => (c :: l) :: ls
        | [] => [[c]] := rfl

theorem joinSp_nil : joinSp [] = [] := rfl

theorem joinSp_singleton (w : List Char) : joinSp [w] = w := rfl

theorem joinSp_cons_cons (w v : List Char) (t : List (List Char)) :
    joinSp (w :: v :: t) = w ++ SP :: joinSp (v :: t) := rfl

theorem splitSp_ne_nil (cs : List Char) : splitSp cs ≠ [] := by
  induction cs with
  | nil => simp [splitSp_nil]
  | cons c rest ih =>
    rw [splitSp_cons]
    split
    · simp
    · cases h : splitSp rest with
      | nil => simp
      | cons l ls => simp

theorem splitSp_cons_eq {c : Char} (hc : c ≠ SP) {rest l : List Char}
    {ls : List (List Char)} (hsp : splitSp rest = l :: ls) :
    splitSp (c :: rest) = (c :: l) :: ls := by
  rw [splitSp_cons, if_neg hc, hsp]

theorem splitSp_cons_sp (rest : List Char) : splitSp (SP :: rest) = [] :: splitSp rest := by
  rw [splitSp_cons, if_pos rfl]

theorem not_mem_space_splitSp {cs w : List Char} (hw : w ∈ splitSp cs) : SP ∉ w := by
  induction cs generalizing w with
  | nil =>
    rw [splitSp_nil] at hw
    simp at hw
    simp [hw]
  | cons c rest ih =>
    by_cases hc : c = SP
    · subst hc
      rw [splitSp_cons_sp] at hw
      rcases List.mem_cons.mp hw with h | h
      · simp [h]
      · exact ih h
    · rcases hsp : splitSp rest with _ | ⟨l, ls⟩
      · exact absurd hsp (splitSp_ne_nil rest)
      rw [splitSp_cons_eq hc hsp] at hw
      rcases List.mem_cons.mp hw with h | h
      · subst h
        intro hmem
        rcases List.mem_cons.mp hmem with h2 | h2
        · exact hc h2.symm
        · exact (ih (hsp ▸ List.mem_cons_self l ls)) h2
      · exact ih (hsp ▸ List.mem_cons_of_mem l h)

theorem splitSp_append_space (a b : List Char) :
    splitSp (a ++ SP :: b) = splitSp a ++ splitSp b := by
  induction a with
  | nil =>
    rw [List.nil_append, splitSp_cons_sp, splitSp_nil, List.singleton_append]
  | cons c t ih =>
    by_cases hc : c = SP
    · subst hc
      rw [List.cons_append, splitSp_cons_sp, splitSp_cons_sp, ih, List.cons_append]
    · rcases hsp : splitSp t with _ | ⟨l, ls⟩
      · exact absurd hsp (splitSp_ne_nil t)
      have hsp2 : splitSp (t ++ SP :: b) = l :: (ls ++ splitSp b) := by
        rw [ih, hsp, List.cons_append]
      rw [List.cons_append, splitSp_cons_eq hc hsp2, splitSp_cons_eq hc hsp,
        List.cons_append]

theorem joinSp_splitSp (cs : List Char) : joinSp (splitSp cs) = cs := by
  induction cs with
  | nil => rfl
  | cons c rest ih =>
    rcases hsp : splitSp rest with _ | ⟨l, ls⟩
    · exact absurd hsp (splitSp_ne_nil rest)
    rw [hsp] at ih
    by_cases hc : c = SP
    · subst hc
      rw [splitSp_cons_sp, hsp, joinSp_cons_cons, List.nil_append, ih]
    · rw [splitSp_cons_eq hc hsp]
      cases ls with
      | nil =>
        rw [joinSp_singleton]
        rw [joinSp_singleton] at ih
        rw [ih]
      | cons l2 ls2 =>
        rw [joinSp_cons_cons] at ih ⊢
        rw [List.cons_append, ih]

theorem splitSp_of_no_space {w : List Char} (h : SP ∉ w) : splitSp w = [w] := by
  induction w with
  | nil => rfl
  | cons c t ih =>
    have hc : c ≠ SP := fun hceq => h (by rw [hceq]; exact List.mem_cons_self SP t)
    have ht : SP ∉ t := fun hm => h (List.mem_cons_of_mem c hm)
    exact splitSp_cons_eq hc (ih ht)

theorem joinSp_append {g1 g2 : List (List Char)} (h1 : g1 ≠ []) (h2 : g2 ≠ []) :
    joinSp (g1 ++ g2) = joinSp g1 ++ SP :: joinSp g2 := by
  induction g1 with
  | nil => exact absurd rfl h1
  | cons w t ih =>
    cases t with
    | nil =>
      rcases g2 with _ | ⟨v, t2⟩
      · exact absurd rfl h2
      · rw [List.singleton_append, joinSp_cons_cons, joinSp_singleton]
    | cons w2 t2 =>
      calc joinSp ((w :: w2 :: t2) ++ g2)
          = w ++ SP :: joinSp ((w2 :: t2) ++ g2) := rfl
        _ = w ++ SP :: (joinSp (w2 :: t2) ++ SP :: joinSp g2) := by
            rw [ih (by simp)]
        _ = joinSp (w :: w2 :: t2) ++ SP :: joinSp g2 := by
            rw [joinSp_cons_cons, List.append_assoc]
            rfl

theorem splitSp_joinSp {ls : List (List Char)} (h : ls ≠ [])
    (hw : ∀ w ∈ ls, SP ∉ w) : splitSp (joinSp ls) = ls := by
  induction ls with
  | nil => exact absurd rfl h
  | cons w t ih =>
    cases t with
    | nil => exact splitSp_of_no_space (hw w (List.mem_cons_self w []))
    | cons w2 t2 =>
      rw [joinSp_cons_cons, splitSp_append_space,
        splitSp_of_no_space (hw w (List.mem_cons_self w _)),
        ih (by simp) (fun v hv => hw v (List.mem_cons_of_mem w hv)),
        List.singleton_append]

/-- The structural recursion equivalent to the word loop, used for proofs:
remaining words, current group (nonempty), current width. -/
def wrapRec (glyphs : List AwGlyph) (font : String) (spacing maxW : ℤ) :
    List (List Char) → List (List Char) → ℤ → List (List (List Char))
  | [], cur, _ => [cur]
  | w :: ws, cur, curW =>
    let wordW := measureTextWidth glyphs w font spacing
    let newW := curW + actualSpacePx glyphs font spacing + wordW
    if newW ≤ maxW then wrapRec glyphs font spacing maxW ws (cur ++ [w]) newW
    else cur :: wrapRec glyphs font spacing maxW ws [w] wordW

theorem foldl_wrapStep_pair (glyphs : List AwGlyph) (font : String) (spacing maxW : ℤ)
    (words : List (List Char)) (lines : List (List (List Char))) (cur : List (List Char))
    (w : ℤ) :
    words.foldl (wrapStep glyphs font spacing maxW) (lines.map joinSp, cur, w) =
      ((words.foldl (wrapStepG glyphs font spacing maxW) (lines, cur, w)).1.map joinSp,
       (words.foldl (wrapStepG glyphs font spacing maxW) (lines, cur, w)).2.1,
       (words.foldl (wrapStepG glyphs font spacing maxW) (lines, cur, w)).2.2) := by
  induction words generalizing lines cur w with
  | nil => rfl
  | cons v vs ih =>
    rw [List.foldl_cons, List.foldl_cons, wrapStep, wrapStepG]
    by_cases h1 : cur = []
    · rw [if_pos h1, if_pos h1]
      exact ih lines [v] _
    · rw [if_neg h1, if_neg h1]
      by_cases h2 : w + actualSpacePx glyphs font spacing +
          measureTextWidth glyphs v font spacing ≤ maxW
      · rw [if_pos h2, if_pos h2]
        exact ih lines (cur ++ [v]) _
      · rw [if_neg h2, if_neg h2]
        have := ih (lines ++ [cur]) [v] (measureTextWidth glyphs v font spacing)
        rw [List.map_append] at this
        exact this

/-- `_get_text_lines` is the join of the groups computed by `wrapGroups`. -/
theorem getTextLines_eq_groups (glyphs : List AwGlyph) (text : List Char) (font : String)
    (spacing maxW : ℤ) :
    getTextLines glyphs text font spacing maxW =
      (wrapGroups glyphs font spacing maxW (splitSp text)).map joinSp := by
  rw [getTextLines, wrapGroups]
  have h := foldl_wrapStep_pair glyphs font spacing maxW (splitSp text) [] [] 0
  rw [show (([] : List (List (List Char))).map joinSp) = [] from rfl] at h
  rw [h]
  split
  · rfl
  · rw [List.map_append]
    rfl

/-- The final `if current_line:` append of `_get_text_lines`. -/
def wrapFin (st : List (List (List Char)) × List (List Char) × ℤ) :
    List (List (List Char)) :=
  if st.2.1 = [] then st.1 else st.1 ++ [st.2.1]

theorem wrapGroups_loop (glyphs : List AwGlyph) (font : String) (spacing maxW : ℤ)
    (ws : List (List Char)) (lines : List (List (List Char))) (cur : List (List Char))
    (curW : ℤ) (h : cur ≠ []) :
    wrapFin (ws.foldl (wrapStepG glyphs font spacing maxW) (lines, cur, curW)) =
      lines ++ wrapRec glyphs font spacing maxW ws cur curW := by
  induction ws generalizing lines cur curW with
  | nil =>
    rw [List.foldl_nil, wrapFin, if_neg h, wrapRec]
  | cons v vs ih =>
    rw [List.foldl_cons, wrapStepG, wrapRec]
    simp only [if_neg h]
    by_cases h2 : curW + actualSpacePx glyphs font spacing +
        measureTextWidth glyphs v font spacing ≤ maxW
    · rw [if_pos h2, if_pos h2]
      exact ih lines (cur ++ [v]) _ (by simp)
    · rw [if_neg h2, if_neg h2]
      rw [ih (lines ++ [cur]) [v] _ (by simp), List.append_assoc]
      rfl

theorem wrapGroups_eq_wrapRec (glyphs : List AwGlyph) (font : String) (spacing maxW : ℤ)
    (w0 : List Char) (rest : List (List Char)) :
    wrapGroups glyphs font spacing maxW (w0 :: rest) =
      wrapRec glyphs font spacing maxW rest [w0]
        (measureTextWidth glyphs w0 font spacing) := by
  have hfin : wrapGroups glyphs font spacing maxW (w0 :: rest) =
      wrapFin ((w0 :: rest).foldl (wrapStepG glyphs font spacing maxW) ([], [], 0)) := rfl
  rw [hfin, List.foldl_cons, wrapStepG]
  simp only [if_pos rfl]
  exact wrapGroups_loop glyphs font spacing maxW rest [] [w0] _ (by simp)

theorem wrapRec_flatten (glyphs : List AwGlyph) (font : String) (spacing maxW : ℤ)
    (ws : List (List Char)) (cur : List (List Char)) (curW : ℤ) :
    (wrapRec glyphs font spacing maxW ws cur curW).flatten = cur ++ ws := by
  induction ws generalizing cur curW with
  | nil => simp [wrapRec]
  | cons v vs ih =>
    rw [wrapRec]
    split
    · rw [ih]
      simp
    · rw [List.flatten_cons, ih]
      simp

theorem wrapRec_groups_ne_nil (glyphs : List AwGlyph) (font : String) (spacing maxW : ℤ)
    (ws : List (List Char)) (cur : List (List Char)) (curW : ℤ) (h : cur ≠ []) :
    ∀ g ∈ wrapRec glyphs font spacing maxW ws cur curW, g ≠ [] := by
  induction ws generalizing cur curW with
  | nil =>
    intro g hg
    rw [wrapRec] at hg
    simp at hg
    rw [hg]
    exact h
  | cons v vs ih =>
    intro g hg
    rw [wrapRec] at hg
    split at hg
    · exact ih (cur ++ [v]) _ (by simp) g hg
    · rcases List.mem_cons.mp hg with h2 | h2
      · rw [h2]; exact h
      · exact ih [v] _ (by simp) g h2

theorem wrapRec_ne_nil (glyphs : List AwGlyph) (font : String) (spacing maxW : ℤ)
    (ws : List (List Char)) (cur : List (List Char)) (curW : ℤ) :
    wrapRec glyphs font spacing maxW ws cur curW ≠ [] := by
  induction ws generalizing cur curW with
  | nil => simp [wrapRec]
  | cons v vs ih =>
    rw [wrapRec]
    split
    · exact ih _ _
    · simp

/-- Once the current line is wider than the budget, it is emitted as-is. -/
theorem wrapRec_wide_cur {glyphs : List AwGlyph} {font : String} {spacing maxW : ℤ}
    (hadj : 0 ≤ spacingAdjust font spacing)
    (ws : List (List Char)) (cur : List (List Char)) {curW : ℤ} (hw : maxW < curW) :
    cur ∈ wrapRec glyphs font spacing maxW ws cur curW := by
  cases ws with
  | nil => simp [wrapRec]
  | cons v vs =>
    rw [wrapRec]
    have hnn := measure_nonneg glyphs hadj v
    have hsp := spacePx_nonneg glyphs hadj
    rw [if_neg (by linarith)]
    exact List.mem_cons_self _ _

/-- A word wider than the budget always ends up as a group of its own. -/
theorem wrapRec_wide_word {glyphs : List AwGlyph} {font : String} {spacing maxW : ℤ}
    (hadj : 0 ≤ spacingAdjust font spacing)
    (ws : List (List Char)) (cur : List (List Char)) (curW : ℤ) (hcurW : 0 ≤ curW)
    {w : List Char} (hmem : w ∈ ws)
    (hwide : maxW < measureTextWidth glyphs w font spacing) :
    [w] ∈ wrapRec glyphs font spacing maxW ws cur curW := by
  induction ws generalizing cur curW with
  | nil => exact absurd hmem (List.not_mem_nil w)
  | cons v vs ih =>
    have hsp := spacePx_nonneg glyphs hadj
    have hvn := measure_nonneg glyphs hadj v
    rcases List.mem_cons.mp hmem with hv | hv
    · subst hv
      rw [wrapRec, if_neg (by linarith)]
      exact List.mem_cons_of_mem _ (wrapRec_wide_cur hadj vs [w] hwide)
    · rw [wrapRec]
      split
      · exact ih (cur ++ [v]) _ (by linarith) hv
      · exact List.mem_cons_of_mem _ (ih [v] _ (by linarith) hv)

theorem flatten_ne_nil {gs : List (List (List Char))} (hne : ∀ g ∈ gs, g ≠ [])
    (h : gs ≠ []) : gs.flatten ≠ [] := by
  cases gs with
  | nil => exact absurd rfl h
  | cons g t =>
    rw [List.flatten_cons]
    have : g ≠ [] := hne g (List.mem_cons_self g t)
    cases g with
    | nil => exact absurd rfl this
    | cons x xs => simp

theorem joinSp_map_joinSp {gs : List (List (List Char))} (hne : ∀ g ∈ gs, g ≠ []) :
    joinSp (gs.map joinSp) = joinSp gs.flatten := by
  induction gs with
  | nil => rfl
  | cons g t ih =>
    cases t with
    | nil => simp [joinSp_singleton]
    | cons g2 t2 =>
      rw [List.map_cons, List.map_cons, joinSp_cons_cons, List.flatten_cons,
        joinSp_append (hne g (List.mem_cons_self g _))
          (flatten_ne_nil (fun g3 hg3 => hne g3 (List.mem_cons_of_mem g hg3)) (by simp)),
        ← List.map_cons, ih (fun g3 hg3 => hne g3 (List.mem_cons_of_mem g hg3))]

/-- C3: `_measure_text_width` equals the sum of the characters' advances plus
one inter-character gap (`spacing`, or `spacing - 1` for the `awtrix` font)
per pair of consecutive characters, is 0 on empty text, and measures the text
"12" in font `5x7` with spacing 1 as `5 + 1 + 5 = 11`. -/
theorem c3_measure_text :
    (∀ (glyphs : List AwGlyph) (text : List Char) (font : String) (spacing : ℤ),
      measureTextWidth glyphs text font spacing = specMeasure glyphs text font spacing) ∧
    measureTextWidth [] "12".toList "5x7" 1 = 11 ∧
    measureCharWidth [] "5x7" (Char.ofNat 49) = 5 := by
  refine ⟨measure_eq_spec, by decide, by decide⟩

/-- C9: re-wrapping the lines produced by `_get_text_lines`, joined by single
spaces, at the same width budget reproduces exactly the same lines. -/
theorem c9_wrap_idempotent (glyphs : List AwGlyph) (text : List Char) (font : String)
    (spacing maxW : ℤ) :
    getTextLines glyphs (joinSp (getTextLines glyphs text font spacing maxW)) font
        spacing maxW =
      getTextLines glyphs text font spacing maxW := by
  rcases hsp : splitSp text with _ | ⟨w0, rest⟩
  · exact absurd hsp (splitSp_ne_nil text)
  have hgroups : wrapGroups glyphs font spacing maxW (splitSp text) =
      wrapRec glyphs font spacing maxW rest [w0]
        (measureTextWidth glyphs w0 font spacing) := by
    rw [hsp, wrapGroups_eq_wrapRec]
  set gs := wrapRec glyphs font spacing maxW rest [w0]
    (measureTextWidth glyphs w0 font spacing) with hgs
  have hGl : getTextLines glyphs text font spacing maxW = gs.map joinSp := by
    rw [getTextLines_eq_groups, hgroups]
  have hne : ∀ g ∈ gs, g ≠ [] := wrapRec_groups_ne_nil _ _ _ _ _ _ _ (by simp)
  have hflat : gs.flatten = w0 :: rest := wrapRec_flatten _ _ _ _ _ _ _
  have hwords : ∀ w ∈ (w0 :: rest), SP ∉ w := fun w hw =>
    not_mem_space_splitSp (hsp ▸ hw)
  have hsplit2 : splitSp (joinSp (gs.map joinSp)) = w0 :: rest := by
    rw [joinSp_map_joinSp hne, hflat]
    exact splitSp_joinSp (by simp) hwords
  rw [hGl, getTextLines_eq_groups, hsplit2, wrapGroups_eq_wrapRec]

/-- C10: concatenating the lines produced by `_get_text_lines` with a single
space between consecutive lines reconstructs the original text exactly; the
underlying word groups concatenate to the original word sequence (no word is
dropped, duplicated, reordered or split); and at least one line is returned. -/
theorem c10_wrap_content_preserving (glyphs : List AwGlyph) (text : List Char)
    (font : String) (spacing maxW : ℤ) :
    joinSp (getTextLines glyphs text font spacing maxW) = text ∧
    (wrapGroups glyphs font spacing maxW (splitSp text)).flatten = splitSp text ∧
    getTextLines glyphs text font spacing maxW ≠ [] := by
  rcases hsp : splitSp text with _ | ⟨w0, rest⟩
  · exact absurd hsp (splitSp_ne_nil text)
  have hgroups : wrapGroups glyphs font spacing maxW (splitSp text) =
      wrapRec glyphs font spacing maxW rest [w0]
        (measureTextWidth glyphs w0 font spacing) := by
    rw [hsp, wrapGroups_eq_wrapRec]
  set gs := wrapRec glyphs font spacing maxW rest [w0]
    (measureTextWidth glyphs w0 font spacing) with hgs
  have hGl : getTextLines glyphs text font spacing maxW = gs.map joinSp := by
    rw [getTextLines_eq_groups, hgroups]
  have hne : ∀ g ∈ gs, g ≠ [] := wrapRec_groups_ne_nil _ _ _ _ _ _ _ (by simp)
  have hflat : gs.flatten = w0 :: rest := wrapRec_flatten _ _ _ _ _ _ _
  refine ⟨?_, ?_, ?_⟩
  · rw [hGl, joinSp_map_joinSp hne, hflat, ← hsp, joinSp_splitSp]
  · rw [wrapGroups_eq_wrapRec, wrapRec_flatten]
    rfl
  · rw [hGl]
    have hgne := wrapRec_ne_nil glyphs font spacing maxW rest [w0]
      (measureTextWidth glyphs w0 font spacing)
    rw [← hgs] at hgne
    intro hmap
    exact hgne (List.map_eq_nil_iff.mp hmap)

/-- C4, counterexample: with font `5x7`, spacing `-20` and max width 3, the
text "a b" wraps to the single line "a b" even though the word "a" alone
measures `5 > 3`: as universally stated (over every spacing) the claim that a
word wider than `max_width` occupies its own line is false. -/
theorem c4_counterexample :
    getTextLines [] "a b".toList "5x7" (-20) 3 = ["a b".toList] ∧
    3 < measureTextWidth [] "a".toList "5x7" (-20) := by
  exact ⟨by decide, by decide⟩

/-- C4 (amended): provided the inter-character gap is nonnegative
(`spacing ≥ 0`, respectively `spacing ≥ 1` for the `awtrix` font),
`_get_text_lines` is the greedy wrap `wrapRec`: it accumulates whole words
while `current_width + space_width + word_width ≤ max_width`, finalizes the
line on overflow and starts a new one with the overflowing word, never splits
a word, and a single word wider than `max_width` occupies a line of its own. -/
theorem c4_greedy_wrap_amended (glyphs : List AwGlyph) (text : List Char) (font : String)
    (spacing maxW : ℤ) (hadj : 0 ≤ spacingAdjust font spacing) :
    (∀ w0 rest, splitSp text = w0 :: rest →
      wrapGroups glyphs font spacing maxW (splitSp text) =
        wrapRec glyphs font spacing maxW rest [w0]
          (measureTextWidth glyphs w0 font spacing)) ∧
    getTextLines glyphs text font spacing maxW =
      (wrapGroups glyphs font spacing maxW (splitSp text)).map joinSp ∧
    (wrapGroups glyphs font spacing maxW (splitSp text)).flatten = splitSp text ∧
    (∀ w ∈ splitSp text, maxW < measureTextWidth glyphs w font spacing →
      [w] ∈ wrapGroups glyphs font spacing maxW (splitSp text)) := by
  refine ⟨?_, getTextLines_eq_groups _ _ _ _ _, ?_, ?_⟩
  · intro w0 rest h
    rw [h, wrapGroups_eq_wrapRec]
  · rcases hsp : splitSp text with _ | ⟨w0, rest⟩
    · exact absurd hsp (splitSp_ne_nil text)
    rw [wrapGroups_eq_wrapRec, wrapRec_flatten]
    rfl
  · intro w hw hwide
    rcases hsp : splitSp text with _ | ⟨w0, rest⟩
    · exact absurd hsp (splitSp_ne_nil text)
    rw [wrapGroups_eq_wrapRec]
    rw [hsp] at hw
    rcases List.mem_cons.mp hw with h | h
    · subst h
      exact wrapRec_wide_cur hadj rest [w] hwide
    · exact wrapRec_wide_word hadj rest [w0] _
        (measure_nonneg glyphs hadj w0) h hwide

/-- Witness for `c4_greedy_wrap_amended`: font `5x7`, spacing 1, width budget
10; the word "aaaa" measures `23 > 10` and comes out as its own line. -/
theorem c4_greedy_wrap_witness :
    (0 : ℤ) ≤ spacingAdjust "5x7" 1 ∧
    ["aaaa".toList] ∈ wrapGroups [] "5x7" 1 10 (splitSp "aaaa bb".toList) :=
  ⟨by decide,
    (c4_greedy_wrap_amended [] "aaaa bb".toList "5x7" 1 10 (by decide)).2.2.2
      "aaaa".toList (by decide) (by decide)⟩

/-! ## Text drawing commands, multi-line cycling and scrolling -/

/-- A text draw call recorded at the granularity of `_draw_text_element`:
the content drawn and the position passed in the element. -/
structure TextCmd where
  content : List Char
  x : ℤ
  y : ℤ
deriving DecidableEq, Repr

/-- `_draw_text_element` as a command: one text draw at `(x, y)`. -/
def drawTextCmd (content : List Char) (x y : ℤ) : List TextCmd := [⟨content, x, y⟩]

/-- The fields of a `textlong` element used by `_draw_textlong_element`:
the pre-wrapped `_cached_lines`, position, speed, `scroll_duration`,
direction and font. -/
structure TextlongEl where
  lines : List (List Char)
  x : ℤ
  y : ℤ
  speed : ℚ
  sd : ℚ
  direction : String
  font : String

/-- `line_h` in `_draw_textlong_element`: 6 for `3x5`, else 8. -/
def lineHeight (font : String) : ℤ := if font = "3x5" then 6 else 8

/-- `cycle_time = speed + scroll_duration`. -/
def tlCycle (el : TextlongEl) : ℚ := el.speed + el.sd

/-- `total_time = cycle_time * num_lines`. -/
def tlTotal (el : TextlongEl) : ℚ := tlCycle el * (el.lines.length : ℚ)

/-- `current_time_in_cycle = now % total_time`. -/
def tlT (now : ℚ) (el : TextlongEl) : ℚ := qmod now (tlTotal el)

/-- `line_idx = int(current_time_in_cycle / cycle_time)`. -/
def tlIdx (now : ℚ) (el : TextlongEl) : ℕ := (pytrunc (tlT now el / tlCycle el)).toNat

/-- `time_in_phase = current_time_in_cycle % cycle_time`. -/
def tlPhase (now : ℚ) (el : TextlongEl) : ℚ := qmod (tlT now el) (tlCycle el)

/-- `next_idx = (line_idx + 1) % num_lines`. -/
def tlNext (now : ℚ) (el : TextlongEl) : ℕ := (tlIdx now el + 1) % el.lines.length

/-- `anim_progress = (time_in_phase - speed) / scroll_duration`, clamped above
at 1. -/
def tlProg (now : ℚ) (el : TextlongEl) : ℚ := min ((tlPhase now el - el.speed) / el.sd) 1

/-- `int(anim_progress * step)` for the step distance of the direction. -/
def tlOff (now : ℚ) (el : TextlongEl) (step : ℤ) : ℤ :=
  pytrunc (tlProg now el * (step : ℚ))

/-- `_draw_textlong_element`, recorded as the sequence of text draw calls it
makes (current line first, then — during a transition — the incoming line). -/
def drawTextlongCmds (w : ℤ) (now : ℚ) (el : TextlongEl) : List TextCmd :=
  if el.lines = [] then []
  else if el.lines.length = 1 then drawTextCmd (el.lines.headD []) el.x el.y
  else if tlPhase now el < el.speed then
    drawTextCmd (el.lines.getD (tlIdx now el) []) el.x el.y
  else if el.direction = "up" then
    drawTextCmd (el.lines.getD (tlIdx now el) []) el.x
        (el.y - tlOff now el (lineHeight el.font)) ++
      drawTextCmd (el.lines.getD (tlNext now el) []) el.x
        (el.y + lineHeight el.font - tlOff now el (lineHeight el.font))
  else if el.direction = "down" then
    drawTextCmd (el.lines.getD (tlIdx now el) []) el.x
        (el.y + tlOff now el (lineHeight el.font)) ++
      drawTextCmd (el.lines.getD (tlNext now el) []) el.x
        (el.y - lineHeight el.font + tlOff now el (lineHeight el.font))
  else if el.direction = "left" then
    drawTextCmd (el.lines.getD (tlIdx now el) []) (el.x - tlOff now el w) el.y ++
      drawTextCmd (el.lines.getD (tlNext now el) []) (el.x + w - tlOff now el w) el.y
  else if el.direction = "right" then
    drawTextCmd (el.lines.getD (tlIdx now el) []) (el.x + tlOff now el w) el.y ++
      drawTextCmd (el.lines.getD (tlNext now el) []) (el.x - w + tlOff now el w) el.y
  else
    drawTextCmd (el.lines.getD (tlIdx now el) []) el.x el.y ++
      drawTextCmd (el.lines.getD (tlNext now el) []) el.x el.y

/-- The fields of a `textscroll` element used by `_draw_textscroll_element`. -/
structure ScrollEl where
  content : List Char
  y : ℤ
  font : String
  spacing : ℤ
  speed : ℤ

/-- The spec's `scroll_travel` (`total_distance` in the code):
`canvas_width + measure(text, font, spacing)`. -/
def scrollTravel (glyphs : List AwGlyph) (el : ScrollEl) (w : ℤ) : ℤ :=
  w + measureTextWidth glyphs el.content el.font el.spacing

/-- `offset = (time.time() * speed) % total_distance`. -/
def scrollOffset (glyphs : List AwGlyph) (w : ℤ) (now : ℚ) (el : ScrollEl) : ℚ :=
  qmod (now * (el.speed : ℚ)) ((scrollTravel glyphs el w : ℤ) : ℚ)

/-- `x = int(self._width - offset)`. -/
def scrollX (glyphs : List AwGlyph) (w : ℤ) (now : ℚ) (el : ScrollEl) : ℤ :=
  pytrunc ((w : ℚ) - scrollOffset glyphs w now el)

/-- `_draw_textscroll_element`: empty content or a measured width below 1
draws nothing; otherwise the text is drawn at the scroll position. -/
def drawTextscrollCmds (glyphs : List AwGlyph) (w : ℤ) (now : ℚ) (el : ScrollEl) :
    List TextCmd :=
  if el.content = [] then []
  else if measureTextWidth glyphs el.content el.font el.spacing < 1 then []
  else drawTextCmd el.content (scrollX glyphs w now el) el.y

theorem lineHeight_nonneg (font : String) : 0 ≤ lineHeight font := by
  rw [lineHeight]
  split <;> norm_num

/-- C5: multi-line cycling.  With `cycle = speed + scroll_duration`,
`total = cycle * line_count`, `t = now mod total`, `line_index = floor(t /
cycle)` and `t_phase = t mod cycle`: while `t_phase < speed` only line
`line_index` is drawn, statically at `(x, y)`; otherwise line `line_index`
and line `(line_index + 1) mod line_count` are both drawn, offset by the
integer part of `clamp((t_phase - speed) / scroll_duration, 0, 1)` times the
step distance in the configured direction; and an element whose wrap produced
exactly one line is drawn exactly as a static text element. -/
theorem c5_textlong_cycle (w : ℤ) (now : ℚ) (el : TextlongEl)
    (hs : 0 < el.speed) (hd : 0 < el.sd) (hw : 0 ≤ w) :
    (el.lines.length = 1 →
      drawTextlongCmds w now el = drawTextCmd (el.lines.headD []) el.x el.y) ∧
    (2 ≤ el.lines.length →
      ((tlIdx now el : ℤ) = ⌊tlT now el / tlCycle el⌋ ∧
        tlIdx now el < el.lines.length ∧
        tlT now el = qmod now ((el.speed + el.sd) * (el.lines.length : ℚ)) ∧
        tlPhase now el = qmod (tlT now el) (el.speed + el.sd)) ∧
      (tlPhase now el < el.speed →
        drawTextlongCmds w now el = [⟨el.lines.getD (tlIdx now el) [], el.x, el.y⟩]) ∧
      (el.speed ≤ tlPhase now el →
        tlProg now el = max 0 (min 1 ((tlPhase now el - el.speed) / el.sd)) ∧
        (el.direction = "up" → drawTextlongCmds w now el =
          [⟨el.lines.getD (tlIdx now el) [], el.x,
              el.y - ⌊tlProg now el * (lineHeight el.font : ℚ)⌋⟩,
            ⟨el.lines.getD (tlNext now el) [], el.x,
              el.y + lineHeight el.font - ⌊tlProg now el * (lineHeight el.font : ℚ)⌋⟩]) ∧
        (el.direction = "down" → drawTextlongCmds w now el =
          [⟨el.lines.getD (tlIdx now el) [], el.x,
              el.y + ⌊tlProg now el * (lineHeight el.font : ℚ)⌋⟩,
            ⟨el.lines.getD (tlNext now el) [], el.x,
              el.y - lineHeight el.font + ⌊tlProg now el * (lineHeight el.font : ℚ)⌋⟩]) ∧
        (el.direction = "left" → drawTextlongCmds w now el =
          [⟨el.lines.getD (tlIdx now el) [],
              el.x - ⌊tlProg now el * (w : ℚ)⌋, el.y⟩,
            ⟨el.lines.getD (tlNext now el) [],
              el.x + w - ⌊tlProg now el * (w : ℚ)⌋, el.y⟩]) ∧
        (el.direction = "right" → drawTextlongCmds w now el =
          [⟨el.lines.getD (tlIdx now el) [],
              el.x + ⌊tlProg now el * (w : ℚ)⌋, el.y⟩,
            ⟨el.lines.getD (tlNext now el) [],
              el.x - w + ⌊tlProg now el * (w : ℚ)⌋, el.y⟩]))) := by
  have hcpos : (0 : ℚ) < el.speed + el.sd := by linarith
  constructor
  · intro h1
    have hne : el.lines ≠ [] := by
      intro h
      rw [h] at h1
      simp at h1
    rw [drawTextlongCmds, if_neg hne, if_pos h1]
  · intro h2
    have hne : el.lines ≠ [] := by
      intro h
      rw [h] at h2
      simp at h2
    have hlen1 : ¬el.lines.length = 1 := by omega
    have hnq : (0 : ℚ) < (el.lines.length : ℚ) := by
      have h0 : 0 < el.lines.length := by omega
      exact_mod_cast h0
    have hcyc : tlCycle el = el.speed + el.sd := rfl
    have htotpos : 0 < tlTotal el := by
      rw [tlTotal, hcyc]
      exact mul_pos hcpos hnq
    have ht0 : 0 ≤ tlT now el := qmod_nonneg _ htotpos
    have htlt : tlT now el < tlTotal el := qmod_lt _ htotpos
    have hdiv0 : 0 ≤ tlT now el / tlCycle el := by
      apply div_nonneg ht0
      rw [hcyc]
      linarith
    have hfl0 : 0 ≤ ⌊tlT now el / tlCycle el⌋ := Int.floor_nonneg.mpr hdiv0
    have hidxZ : (tlIdx now el : ℤ) = ⌊tlT now el / tlCycle el⌋ := by
      rw [tlIdx, pytrunc, if_pos hdiv0, Int.toNat_of_nonneg hfl0]
    have hidxlt : tlIdx now el < el.lines.length := by
      have hflt : ⌊tlT now el / tlCycle el⌋ < (el.lines.length : ℤ) := by
        apply Int.floor_lt.mpr
        push_cast
        rw [div_lt_iff₀ (by rw [hcyc]; linarith)]
        calc tlT now el < tlTotal el := htlt
          _ = (el.lines.length : ℚ) * tlCycle el := by rw [tlTotal]; ring
      have : (tlIdx now el : ℤ) < (el.lines.length : ℤ) := by rw [hidxZ]; exact hflt
      exact_mod_cast this
    refine ⟨⟨hidxZ, hidxlt, rfl, rfl⟩, ?_, ?_⟩
    · intro hlt
      rw [drawTextlongCmds, if_neg hne, if_neg hlen1, if_pos hlt]
      rfl
    · intro hge
      have hnotlt : ¬tlPhase now el < el.speed := not_lt.mpr hge
      have hprognn : 0 ≤ (tlPhase now el - el.speed) / el.sd :=
        div_nonneg (by linarith) (le_of_lt hd)
      have h0min : (0 : ℚ) ≤ min 1 ((tlPhase now el - el.speed) / el.sd) :=
        le_min zero_le_one hprognn
      have hprog : tlProg now el = max 0 (min 1 ((tlPhase now el - el.speed) / el.sd)) := by
        rw [tlProg, max_eq_right h0min]
        exact min_comm _ _
      have hprog0 : 0 ≤ tlProg now el := by
        rw [hprog]
        exact le_max_left 0 _
      have hoff_lh : tlOff now el (lineHeight el.font) =
          ⌊tlProg now el * (lineHeight el.font : ℚ)⌋ := by
        rw [tlOff, pytrunc, if_pos]
        apply mul_nonneg hprog0
        exact_mod_cast lineHeight_nonneg el.font
      have hoff_w : tlOff now el w = ⌊tlProg now el * (w : ℚ)⌋ := by
        rw [tlOff, pytrunc, if_pos]
        apply mul_nonneg hprog0
        exact_mod_cast hw
      refine ⟨hprog, ?_, ?_, ?_, ?_⟩
      · intro hdir
        rw [drawTextlongCmds, if_neg hne, if_neg hlen1, if_neg hnotlt, if_pos hdir, hoff_lh]
        rfl
      · intro hdir
        have hnu : ¬el.direction = "up" := by rw [hdir]; decide
        rw [drawTextlongCmds, if_neg hne, if_neg hlen1, if_neg hnotlt, if_neg hnu,
          if_pos hdir, hoff_lh]
        rfl
      · intro hdir
        have hnu : ¬el.direction = "up" := by rw [hdir]; decide
        have hnd : ¬el.direction = "down" := by rw [hdir]; decide
        rw [drawTextlongCmds, if_neg hne, if_neg hlen1, if_neg hnotlt, if_neg hnu,
          if_neg hnd, if_pos hdir, hoff_w]
        rfl
      · intro hdir
        have hnu : ¬el.direction = "up" := by rw [hdir]; decide
        have hnd : ¬el.direction = "down" := by rw [hdir]; decide
        have hnl : ¬el.direction = "left" := by rw [hdir]; decide
        rw [drawTextlongCmds, if_neg hne, if_neg hlen1, if_neg hnotlt, if_neg hnu,
          if_neg hnd, if_neg hnl, if_pos hdir, hoff_w]
        rfl

/-- Witness for `c5_textlong_cycle`: two lines "ab"/"cd", `speed = 2`,
`scroll_duration = 0.5`, direction `up`, font `5x7`.  At `t = 0.5` (static
phase) only line 0 is drawn, unshifted; at `t = 2.25` (eased progress `0.5`)
both lines are offset by half the 8-pixel step. -/
theorem c5_textlong_cycle_witness :
    drawTextlongCmds 32 (1 / 2)
        ⟨["ab".toList, "cd".toList], 0, 0, 2, 1 / 2, "up", "5x7"⟩ =
      [⟨"ab".toList, 0, 0⟩] ∧
    drawTextlongCmds 32 (9 / 4)
        ⟨["ab".toList, "cd".toList], 0, 0, 2, 1 / 2, "up", "5x7"⟩ =
      [⟨"ab".toList, 0, -4⟩, ⟨"cd".toList, 0, 4⟩] := by
  have hcy : tlCycle ⟨["ab".toList, "cd".toList], 0, 0, 2, 1 / 2, "up", "5x7"⟩ = 5 / 2 := by
    rw [tlCycle]
    norm_num
  have htot : tlTotal ⟨["ab".toList, "cd".toList], 0, 0, 2, 1 / 2, "up", "5x7"⟩ = 5 := by
    rw [tlTotal, hcy]
    norm_num
  constructor
  · have ht : tlT (1 / 2) ⟨["ab".toList, "cd".toList], 0, 0, 2, 1 / 2, "up", "5x7"⟩ = 1 / 2 := by
      rw [tlT, htot, qmod,
        show ⌊(1 / 2 : ℚ) / 5⌋ = 0 from by rw [Int.floor_eq_iff]; norm_num]
      norm_num
    have hidx : tlIdx (1 / 2) ⟨["ab".toList, "cd".toList], 0, 0, 2, 1 / 2, "up", "5x7"⟩ = 0 := by
      rw [tlIdx, ht, hcy, pytrunc, if_pos (by norm_num : (0 : ℚ) ≤ 1 / 2 / (5 / 2)),
        show ⌊(1 / 2 : ℚ) / (5 / 2)⌋ = 0 from by rw [Int.floor_eq_iff]; norm_num]
      rfl
    have hph : tlPhase (1 / 2) ⟨["ab".toList, "cd".toList], 0, 0, 2, 1 / 2, "up", "5x7"⟩ = 1 / 2 := by
      rw [tlPhase, ht, hcy, qmod,
        show ⌊(1 / 2 : ℚ) / (5 / 2)⌋ = 0 from by rw [Int.floor_eq_iff]; norm_num]
      norm_num
    have h := ((c5_textlong_cycle 32 (1 / 2)
        ⟨["ab".toList, "cd".toList], 0, 0, 2, 1 / 2, "up", "5x7"⟩
        (by norm_num) (by norm_num) (by norm_num)).2 (by decide)).2.1
      (by rw [hph]; norm_num)
    rw [h, hidx]
    rfl
  · have ht : tlT (9 / 4) ⟨["ab".toList, "cd".toList], 0, 0, 2, 1 / 2, "up", "5x7"⟩ = 9 / 4 := by
      rw [tlT, htot, qmod,
        show ⌊(9 / 4 : ℚ) / 5⌋ = 0 from by rw [Int.floor_eq_iff]; norm_num]
      norm_num
    have hidx : tlIdx (9 / 4) ⟨["ab".toList, "cd".toList], 0, 0, 2, 1 / 2, "up", "5x7"⟩ = 0 := by
      rw [tlIdx, ht, hcy, pytrunc, if_pos (by norm_num : (0 : ℚ) ≤ 9 / 4 / (5 / 2)),
        show ⌊(9 / 4 : ℚ) / (5 / 2)⌋ = 0 from by rw [Int.floor_eq_iff]; norm_num]
      rfl
    have hph : tlPhase (9 / 4) ⟨["ab".toList, "cd".toList], 0, 0, 2, 1 / 2, "up", "5x7"⟩ = 9 / 4 := by
      rw [tlPhase, ht, hcy, qmod,
        show ⌊(9 / 4 : ℚ) / (5 / 2)⌋ = 0 from by rw [Int.floor_eq_iff]; norm_num]
      norm_num
    have hnxt : tlNext (9 / 4) ⟨["ab".toList, "cd".toList], 0, 0, 2, 1 / 2, "up", "5x7"⟩ = 1 := by
      rw [tlNext, hidx]
      rfl
    have hprog : tlProg (9 / 4) ⟨["ab".toList, "cd".toList], 0, 0, 2, 1 / 2, "up", "5x7"⟩ = 1 / 2 := by
      rw [tlProg, hph]
      norm_num [min_def]
    have h := (((c5_textlong_cycle 32 (9 / 4)
        ⟨["ab".toList, "cd".toList], 0, 0, 2, 1 / 2, "up", "5x7"⟩
        (by norm_num) (by norm_num) (by norm_num)).2 (by decide)).2.2
      (by rw [hph]; norm_num)).2.1 rfl
    rw [h, hidx, hnxt, hprog,
      show lineHeight "5x7" = 8 from by decide,
      show ⌊(1 / 2 : ℚ) * ((8 : ℤ) : ℚ)⌋ = 4 from by
        rw [show (1 / 2 : ℚ) * ((8 : ℤ) : ℚ) = ((4 : ℤ) : ℚ) from by push_cast; norm_num]
        exact Int.floor_intCast 4]
    norm_num

/-- C6: for nonempty text of positive measured width, `_draw_textscroll_element`
draws the text at `x = int(canvas_width - ((now * speed) mod (canvas_width +
measure(text))))`, and this position is periodic in time with period
`scroll_travel / speed`. -/
theorem c6_scroll_periodic (glyphs : List AwGlyph) (w : ℤ) (now : ℚ) (el : ScrollEl)
    (hc : el.content ≠ [])
    (htw : 1 ≤ measureTextWidth glyphs el.content el.font el.spacing)
    (hsp : 0 < el.speed) (hw : 0 ≤ w) :
    drawTextscrollCmds glyphs w now el =
      [⟨el.content,
        pytrunc ((w : ℚ) - qmod (now * (el.speed : ℚ))
          (((w + measureTextWidth glyphs el.content el.font el.spacing : ℤ)) : ℚ)),
        el.y⟩] ∧
    drawTextscrollCmds glyphs w
        (now + ((scrollTravel glyphs el w : ℤ) : ℚ) / ((el.speed : ℤ) : ℚ)) el =
      drawTextscrollCmds glyphs w now el := by
  have hnl : ¬measureTextWidth glyphs el.content el.font el.spacing < 1 := not_lt.mpr htw
  have hdraw : ∀ t : ℚ, drawTextscrollCmds glyphs w t el =
      drawTextCmd el.content (scrollX glyphs w t el) el.y := by
    intro t
    rw [drawTextscrollCmds, if_neg hc, if_neg hnl]
  have hT1 : (1 : ℤ) ≤ scrollTravel glyphs el w := by
    rw [scrollTravel]
    linarith
  have hTpos : (0 : ℚ) < ((scrollTravel glyphs el w : ℤ) : ℚ) := by
    exact_mod_cast lt_of_lt_of_le zero_lt_one hT1
  have hsq : ((el.speed : ℤ) : ℚ) ≠ 0 := by
    have h0 : (0 : ℚ) < ((el.speed : ℤ) : ℚ) := by exact_mod_cast hsp
    linarith
  constructor
  · rw [hdraw now, drawTextCmd, scrollX, scrollOffset, scrollTravel]
  · rw [hdraw now, hdraw (now + ((scrollTravel glyphs el w : ℤ) : ℚ) / ((el.speed : ℤ) : ℚ))]
    have hshift : (now + ((scrollTravel glyphs el w : ℤ) : ℚ) / ((el.speed : ℤ) : ℚ)) *
        ((el.speed : ℤ) : ℚ) =
        now * ((el.speed : ℤ) : ℚ) + ((scrollTravel glyphs el w : ℤ) : ℚ) := by
      field_simp
    have hoff : scrollOffset glyphs w
        (now + ((scrollTravel glyphs el w : ℤ) : ℚ) / ((el.speed : ℤ) : ℚ)) el =
        scrollOffset glyphs w now el := by
      rw [scrollOffset, scrollOffset, hshift, qmod_add_right _ (ne_of_gt hTpos)]
    rw [scrollX, scrollX, hoff]

/-- Witness for `c6_scroll_periodic`: text "ab" in font `5x7` (width 11),
canvas width 32, speed 10; the scroll position repeats after
`(32 + 11) / 10` seconds. -/
theorem c6_scroll_periodic_witness :
    drawTextscrollCmds [] 32 (1 / 5) ⟨"ab".toList, 0, "5x7", 1, 10⟩ =
      [⟨"ab".toList,
        pytrunc ((32 : ℚ) - qmod ((1 / 5) * ((10 : ℤ) : ℚ))
          (((32 + measureTextWidth [] "ab".toList "5x7" 1 : ℤ)) : ℚ)), 0⟩] ∧
    drawTextscrollCmds [] 32
        ((1 / 5) + ((scrollTravel [] ⟨"ab".toList, 0, "5x7", 1, 10⟩ 32 : ℤ) : ℚ) /
          (((10 : ℤ)) : ℚ)) ⟨"ab".toList, 0, "5x7", 1, 10⟩ =
      drawTextscrollCmds [] 32 (1 / 5) ⟨"ab".toList, 0, "5x7", 1, 10⟩ :=
  c6_scroll_periodic [] 32 (1 / 5) ⟨"ab".toList, 0, "5x7", 1, 10⟩
    (by decide) (by decide) (by decide) (by decide)

/-! ## Scene rendering loop, error containment and the dispatch gate -/

/-- The body of the per-element `try/except` in `_render_canvas_sync`:
rendering one element either yields an updated canvas or raises (`none`),
in which case the canvas is left as it was and the loop continues. -/
def renderStep {El Canvas : Type} (renderOne : El → Canvas → Option Canvas)
    (c : Canvas) (el : El) : Canvas :=
  match renderOne el c with
  | some c2 => c2
  | none => c

/-- `_render_canvas_sync`: start from the brightness-scaled background, render
each element in order under the per-element exception handler, then flatten
onto the opaque backing. -/
def renderCanvasSync {El Canvas Frame : Type} (renderOne : El → Canvas → Option Canvas)
    (flatten : Canvas → Frame) (bg : Canvas) (els : List El) : Frame :=
  flatten (els.foldl (renderStep renderOne) bg)

/-- C7: a failing element is skipped and everything else still renders: if
rendering element `el` raises on the canvas reached at its position, the
produced frame equals the frame of the same scene without `el`, for every
prefix and suffix — rendering never aborts the scene. -/
theorem c7_element_error_contained {El Canvas Frame : Type}
    (renderOne : El → Canvas → Option Canvas) (flatten : Canvas → Frame)
    (bg : Canvas) (pre post : List El) (el : El)
    (hfail : renderOne el (pre.foldl (renderStep renderOne) bg) = none) :
    renderCanvasSync renderOne flatten bg (pre ++ el :: post) =
      renderCanvasSync renderOne flatten bg (pre ++ post) := by
  rw [renderCanvasSync, renderCanvasSync, List.foldl_append, List.foldl_append,
    List.foldl_cons, renderStep, hfail]

/-- Witness for `c7_element_error_contained`: elements are numbers, element 0
always raises, every other element adds itself to the canvas. -/
theorem c7_element_error_contained_witness :
    renderCanvasSync
        (fun (e : ℕ) (c : ℕ) => if e = 0 then none else some (c + e))
        (fun (c : ℕ) => c) 100 ([1, 2] ++ 0 :: [3]) =
      renderCanvasSync
        (fun (e : ℕ) (c : ℕ) => if e = 0 then none else some (c + e))
        (fun (c : ℕ) => c) 100 ([1, 2] ++ [3]) :=
  c7_element_error_contained
    (fun (e : ℕ) (c : ℕ) => if e = 0 then none else some (c + e))
    (fun (c : ℕ) => c) 100 [1, 2] [3] 0 (by decide)

/-- The state of the frame dispatch gate: the encoded bytes of the last frame
handed to the transport (`UmpBleClient.get_last_frame`) and a count of
transport sends. -/
structure GateState where
  last : List ℕ
  sends : ℕ
deriving DecidableEq, Repr

/-- `_render_and_send`: render the scene, encode the frame to PNG bytes,
compare with the stored last-sent buffer, and only on a difference forward the
frame to the transport and store the new bytes.  (The buffer update on a
successful send lives in `UmpBleClient.send_frame_png`, which is not among the
sources; it is modelled from the spec's gate contract, success path.)
Returns the new state and whether a transport send happened. -/
def renderAndSend {Scene Frame : Type} (render : Scene → Frame)
    (encodePng : Frame → List ℕ) (st : GateState) (scene : Scene) :
    GateState × Bool :=
  let newBytes := encodePng (render scene)
  if st.last = newBytes then (st, false)
  else (⟨newBytes, st.sends + 1⟩, true)

/-- C1: the gate suppresses duplicate frames.  Submitting two scenes that
render to pixel-identical frames, starting from a state whose stored buffer
differs from their encoding, sends exactly once: the first submission is
forwarded, the second compares equal and is not forwarded. -/
theorem c1_dispatch_suppression {Scene Frame : Type} (render : Scene → Frame)
    (encodePng : Frame → List ℕ) (st : GateState) (s1 s2 : Scene)
    (hframes : render s1 = render s2)
    (hnew : st.last ≠ encodePng (render s1)) :
    (renderAndSend render encodePng st s1).2 = true ∧
    (renderAndSend render encodePng (renderAndSend render encodePng st s1).1 s2).2 = false ∧
    (renderAndSend render encodePng (renderAndSend render encodePng st s1).1 s2).1.sends =
      st.sends + 1 := by
  have h1 : renderAndSend render encodePng st s1 =
      ((⟨encodePng (render s1), st.sends + 1⟩ : GateState), true) := by
    rw [renderAndSend]
    simp only [if_neg hnew]
  have h2 : renderAndSend render encodePng
        (⟨encodePng (render s1), st.sends + 1⟩ : GateState) s2 =
      ((⟨encodePng (render s1), st.sends + 1⟩ : GateState), false) := by
    rw [renderAndSend]
    simp [hframes]
  have h1fst : (renderAndSend render encodePng st s1).1 =
      (⟨encodePng (render s1), st.sends + 1⟩ : GateState) := by
    rw [h1]
  refine ⟨?_, ?_, ?_⟩
  · rw [h1]
  · rw [h1fst, h2]
  · rw [h1fst, h2]

/-- Witness for `c1_dispatch_suppression`: scenes are numbers, rendering and
encoding are trivial; submitting the scene 7 twice from an empty buffer sends
exactly once. -/
theorem c1_dispatch_suppression_witness :
    (renderAndSend (fun n : ℕ => n) (fun n => [n]) ⟨[], 0⟩ 7).2 = true ∧
    (renderAndSend (fun n : ℕ => n) (fun n => [n])
        (renderAndSend (fun n : ℕ => n) (fun n => [n]) ⟨[], 0⟩ 7).1 7).2 = false ∧
    (renderAndSend (fun n : ℕ => n) (fun n => [n])
        (renderAndSend (fun n : ℕ => n) (fun n => [n]) ⟨[], 0⟩ 7).1 7).1.sends =
      (⟨[], 0⟩ : GateState).sends + 1 :=
  c1_dispatch_suppression (fun n : ℕ => n) (fun n => [n]) ⟨[], 0⟩ 7 7 rfl (by decide)

/-! ## Whole-frame transitions (modelled from the spec) -/

/-- Modelled from the spec: `steps = max(1, round(duration * fps))` of the
transition sequence in §4.4; the transition path does not appear in the
sources here (`light.py` has no frame-morph code). -/
def transitionSteps (duration fps : ℚ) : ℤ := max 1 (round (duration * fps))

/-- Modelled from the spec: `linear = i / steps`, `eased = 1 - (1 - linear)^2`
(ease-out quadratic). -/
def easedAt (duration fps : ℚ) (i : ℕ) : ℚ :=
  1 - (1 - (i : ℚ) / ((transitionSteps duration fps : ℤ) : ℚ)) ^ 2

/-- A frame as a per-pixel channel intensity. -/
def TFrame : Type := ℤ → ℤ → ℚ

/-- Modelled from the spec: the synthesized transition frame at step `i`.
`slide_*` paste `from` and `to` offset by `eased * dimension` along the
effect's axis; `dissolve` blends per pixel; any unknown kind hard-cuts at
`eased = 1/2`. -/
def transitionFrame (kind : String) (W H : ℤ) (f t : TFrame) (duration fps : ℚ)
    (i : ℕ) : TFrame :=
  fun x y =>
    if kind = "slide_left" then
      if x + ⌊easedAt duration fps i * (W : ℚ)⌋ < W then
        f (x + ⌊easedAt duration fps i * (W : ℚ)⌋) y
      else t (x + ⌊easedAt duration fps i * (W : ℚ)⌋ - W) y
    else if kind = "slide_right" then
      if 0 ≤ x - ⌊easedAt duration fps i * (W : ℚ)⌋ then
        f (x - ⌊easedAt duration fps i * (W : ℚ)⌋) y
      else t (x - ⌊easedAt duration fps i * (W : ℚ)⌋ + W) y
    else if kind = "slide_up" then
      if y + ⌊easedAt duration fps i * (H : ℚ)⌋ < H then
        f x (y + ⌊easedAt duration fps i * (H : ℚ)⌋)
      else t x (y + ⌊easedAt duration fps i * (H : ℚ)⌋ - H)
    else if kind = "slide_down" then
      if 0 ≤ y - ⌊easedAt duration fps i * (H : ℚ)⌋ then
        f x (y - ⌊easedAt duration fps i * (H : ℚ)⌋)
      else t x (y - ⌊easedAt duration fps i * (H : ℚ)⌋ + H)
    else if kind = "dissolve" then
      (1 - easedAt duration fps i) * f x y + easedAt duration fps i * t x y
    else if easedAt duration fps i ≤ 1 / 2 then f x y
    else t x y

/-- C8: for every transition kind, the synthesized frame at step `i = 0`
(`eased = 0`) is pixel-identical to `from` and at `i = steps` (`eased = 1`)
pixel-identical to `to`, at every pixel of the canvas; and `slide_left` with
duration 1 s at 20 fps has exactly 20 steps. -/
theorem c8_transition_boundary (kind : String) (W H : ℤ) (f t : TFrame)
    (duration fps : ℚ) (x y : ℤ)
    (hx0 : 0 ≤ x) (hxW : x < W) (hy0 : 0 ≤ y) (hyH : y < H) :
    transitionFrame kind W H f t duration fps 0 x y = f x y ∧
    transitionFrame kind W H f t duration fps (transitionSteps duration fps).toNat x y =
      t x y ∧
    transitionSteps 1 20 = 20 := by
  have hs1 : (1 : ℤ) ≤ transitionSteps duration fps := le_max_left 1 _
  have h0 : easedAt duration fps 0 = 0 := by
    rw [easedAt]
    norm_num
  have h1 : easedAt duration fps (transitionSteps duration fps).toNat = 1 := by
    rw [easedAt]
    have hc : (((transitionSteps duration fps).toNat : ℕ) : ℚ) =
        ((transitionSteps duration fps : ℤ) : ℚ) := by
      exact_mod_cast Int.toNat_of_nonneg (by omega)
    rw [hc, div_self]
    · norm_num
    · have hpos : (0 : ℚ) < ((transitionSteps duration fps : ℤ) : ℚ) := by
        exact_mod_cast lt_of_lt_of_le zero_lt_one hs1
      linarith
  refine ⟨?_, ?_, ?_⟩
  · rw [transitionFrame]
    by_cases hk1 : kind = "slide_left"
    · simp only [if_pos hk1, h0, zero_mul, Int.floor_zero, add_zero]
      rw [if_pos hxW]
    by_cases hk2 : kind = "slide_right"
    · simp only [if_neg hk1, if_pos hk2, h0, zero_mul, Int.floor_zero, sub_zero]
      rw [if_pos hx0]
    by_cases hk3 : kind = "slide_up"
    · simp only [if_neg hk1, if_neg hk2, if_pos hk3, h0, zero_mul, Int.floor_zero, add_zero]
      rw [if_pos hyH]
    by_cases hk4 : kind = "slide_down"
    · simp only [if_neg hk1, if_neg hk2, if_neg hk3, if_pos hk4, h0, zero_mul,
        Int.floor_zero, sub_zero]
      rw [if_pos hy0]
    by_cases hk5 : kind = "dissolve"
    · simp only [if_neg hk1, if_neg hk2, if_neg hk3, if_neg hk4, if_pos hk5, h0]
      ring
    · simp only [if_neg hk1, if_neg hk2, if_neg hk3, if_neg hk4, if_neg hk5, h0]
      rw [if_pos (by norm_num : (0 : ℚ) ≤ 1 / 2)]
  · rw [transitionFrame]
    by_cases hk1 : kind = "slide_left"
    · simp only [if_pos hk1, h1, one_mul, Int.floor_intCast]
      rw [if_neg (by omega), add_sub_cancel_right]
    by_cases hk2 : kind = "slide_right"
    · simp only [if_neg hk1, if_pos hk2, h1, one_mul, Int.floor_intCast]
      rw [if_neg (by omega), sub_add_cancel]
    by_cases hk3 : kind = "slide_up"
    · simp only [if_neg hk1, if_neg hk2, if_pos hk3, h1, one_mul, Int.floor_intCast]
      rw [if_neg (by omega), add_sub_cancel_right]
    by_cases hk4 : kind = "slide_down"
    · simp only [if_neg hk1, if_neg hk2, if_neg hk3, if_pos hk4, h1, one_mul,
        Int.floor_intCast]
      rw [if_neg (by omega), sub_add_cancel]
    by_cases hk5 : kind = "dissolve"
    · simp only [if_neg hk1, if_neg hk2, if_neg hk3, if_neg hk4, if_pos hk5, h1]
      ring
    · simp only [if_neg hk1, if_neg hk2, if_neg hk3, if_neg hk4, if_neg hk5, h1]
      rw [if_neg (by norm_num : ¬(1 : ℚ) ≤ 1 / 2)]
  · rw [transitionSteps]
    norm_num

/-- Witness for `c8_transition_boundary`: `slide_left`, canvas 32 × 8,
`duration = 1`, `fps = 20`; the frame at step 0 equals `from` and the frame
at step `steps = 20` equals `to` at pixel (0, 0). -/
theorem c8_transition_boundary_witness :
    transitionFrame "slide_left" 32 8 (fun _ _ => (0 : ℚ)) (fun _ _ => (1 : ℚ)) 1 20 0 0 0 =
      (fun (_ _ : ℤ) => (0 : ℚ)) 0 0 ∧
    transitionFrame "slide_left" 32 8 (fun _ _ => (0 : ℚ)) (fun _ _ => (1 : ℚ)) 1 20
        (transitionSteps 1 20).toNat 0 0 =
      (fun (_ _ : ℤ) => (1 : ℚ)) 0 0 ∧
    transitionSteps 1 20 = 20 :=
  c8_transition_boundary "slide_left" 32 8 (fun _ _ => (0 : ℚ)) (fun _ _ => (1 : ℚ))
    1 20 0 0 (by norm_num) (by norm_num) (by norm_num) (by norm_num)

end Ump
